import Mathlib

/-!
Shallow embedding of the `rmdups` duplicate-marking pipeline
(`src/metadata.rs`, `src/algorithm.rs`, `src/io/mod.rs`, `src/args.rs`,
`src/main.rs`) together with proofs about it.

Machine integers are modelled as `Nat` / `Int` with explicit `% 2^w`
where the source truncates (`as u32`, `as u8`); byte streams are
`List Nat` whose elements are bytes (`< 256`) wherever the source
guarantees `u8`.
-/

namespace Rmdups

/-! ## Metadata record (`src/metadata.rs`)

`Metadata` mirrors the Rust struct field for field, in declaration
order.  `i32` fields become `Int`, `u8`/`u32`/`u64` fields become `Nat`.
-/

structure Metadata where
  lib_id : Int
  ref_id1 : Int
  pos1 : Int
  rev1 : Nat
  rev2 : Nat
  ref_id2 : Int
  pos2 : Int
  score : Nat
  idx1 : Nat
  idx2 : Nat
  paired_end : Nat
deriving DecidableEq, Repr

/-- Range of the Rust `i32` type. -/
def i32Range (v : Int) : Prop := -(2 ^ 31) ≤ v ∧ v < 2 ^ 31

instance (v : Int) : Decidable (i32Range v) := by
  unfold i32Range
  infer_instance

/-- Well-formedness: every field is inside the range of its Rust type.
Every value of the Rust `Metadata` type satisfies this by construction. -/
def Metadata.WF (m : Metadata) : Prop :=
  i32Range m.lib_id ∧ i32Range m.ref_id1 ∧ i32Range m.pos1 ∧
  m.rev1 < 256 ∧ m.rev2 < 256 ∧ i32Range m.ref_id2 ∧ i32Range m.pos2 ∧
  m.score < 2 ^ 32 ∧ m.idx1 < 2 ^ 64 ∧ m.idx2 < 2 ^ 64 ∧ m.paired_end < 256

instance (m : Metadata) : Decidable m.WF := by
  unfold Metadata.WF
  infer_instance

/-! ### Binary codec (`Metadata::write_to` / `Metadata::read_from`) -/

/-- Little-endian byte encoding of a natural number on `k` bytes
(`to_le_bytes` on unsigned integers). -/
def natToLe : Nat → Nat → List Nat
  | 0, _ => []
  | k + 1, n => n % 256 :: natToLe k (n / 256)

/-- Little-endian decoding of a byte list (`from_le_bytes` on unsigned
integers). -/
def leToNat : List Nat → Nat
  | [] => 0
  | b :: bs => b + 256 * leToNat bs

/-- `i32::to_le_bytes`: two's-complement little-endian encoding. -/
def i32ToLe (v : Int) : List Nat := natToLe 4 ((v % 2 ^ 32).toNat)

/-- `i32::from_le_bytes`: two's-complement little-endian decoding. -/
def leToI32 (bs : List Nat) : Int :=
  if leToNat bs < 2 ^ 31 then (leToNat bs : Int) else (leToNat bs : Int) - 2 ^ 32

/-- `Metadata::write_to`: serialize to the fixed little-endian layout
`lib_id(4) ref_id1(4) pos1(4) rev1(1) rev2(1) ref_id2(4) pos2(4)
score(4) idx1(8) idx2(8) paired_end(1)`. -/
def Metadata.write_to (m : Metadata) : List Nat :=
  i32ToLe m.lib_id ++ i32ToLe m.ref_id1 ++ i32ToLe m.pos1 ++
  [m.rev1, m.rev2] ++ i32ToLe m.ref_id2 ++ i32ToLe m.pos2 ++
  natToLe 4 m.score ++ natToLe 8 m.idx1 ++ natToLe 8 m.idx2 ++
  [m.paired_end]

/-- `Read::read_exact` on a byte stream: succeeds returning the `k`
bytes read and the rest of the stream iff at least `k` bytes remain. -/
def readExact (k : Nat) (bs : List Nat) : Option (List Nat × List Nat) :=
  if k ≤ bs.length then some (bs.take k, bs.drop k) else none

/-- `Metadata::read_from`.  A failure of the *first* `read_exact` is
mapped to `Ok(None)` (end of stream); a failure of any later read is
propagated as an error (`?` on `anyhow::Result`). -/
def Metadata.read_from (bs : List Nat) : Except Unit (Option Metadata) :=
  match readExact 4 bs with
  | none => .ok none
  | some (b_lib, bs) =>
    match readExact 4 bs with
    | none => .error ()
    | some (b_ref1, bs) =>
      match readExact 4 bs with
      | none => .error ()
      | some (b_pos1, bs) =>
        match readExact 2 bs with
        | none => .error ()
        | some (b_rev, bs) =>
          match readExact 4 bs with
          | none => .error ()
          | some (b_ref2, bs) =>
            match readExact 4 bs with
            | none => .error ()
            | some (b_pos2, bs) =>
              match readExact 4 bs with
              | none => .error ()
              | some (b_score, bs) =>
                match readExact 8 bs with
                | none => .error ()
                | some (b_idx1, bs) =>
                  match readExact 8 bs with
                  | none => .error ()
                  | some (b_idx2, bs) =>
                    match readExact 1 bs with
                    | none => .error ()
                    | some (b_pe, _) =>
                      .ok (some
                        { lib_id := leToI32 b_lib
                          ref_id1 := leToI32 b_ref1
                          pos1 := leToI32 b_pos1
                          rev1 := b_rev.getD 0 0
                          rev2 := b_rev.getD 1 0
                          ref_id2 := leToI32 b_ref2
                          pos2 := leToI32 b_pos2
                          score := leToNat b_score
                          idx1 := leToNat b_idx1
                          idx2 := leToNat b_idx2
                          paired_end := b_pe.getD 0 0 })

/-- `Metadata::binary_size`. -/
def Metadata.binary_size : Nat := 4 + 4 + 4 + 2 + 4 + 4 + 4 + 8 + 8 + 1

/-- Default Metadata value, used only as the default of `List.getD`. -/
def mZero : Metadata :=
  { lib_id := 0, ref_id1 := 0, pos1 := 0, rev1 := 0, rev2 := 0,
    ref_id2 := -1, pos2 := 0, score := 0, idx1 := 0, idx2 := 0,
    paired_end := 0 }

/-- A concrete well-formed Metadata value (a PE entry with a negative
`ref_id2` is included to exercise the two's-complement path). -/
def mEx : Metadata :=
  { lib_id := 1, ref_id1 := 0, pos1 := 1000, rev1 := 0, rev2 := 1,
    ref_id2 := -1, pos2 := 0, score := 50, idx1 := 42, idx2 := 43,
    paired_end := 1 }

/-! ## Duplicate-identification algorithm (`src/algorithm.rs`)

The duplicate-index set is a `RoaringBitmap`, i.e. a set of `u32`
values; Rust inserts `idx as u32`, which truncates, so the model
inserts `idx % 2^32`.
-/

/-- The `u32` modulus (`as u32` truncation). -/
def U32 : Nat := 2 ^ 32

/-- Group key `(lib_id, ref_id1, pos1, rev1)`. -/
abbrev GroupKey := Int × Int × Int × Nat

/-- `mask.insert(idx as u32)`. -/
def maskInsert (idx : Nat) (mask : Finset Nat) : Finset Nat :=
  insert (idx % U32) mask

/-- `dup_mask.contains(idx as u32)`. -/
def maskContains (idx : Nat) (mask : Finset Nat) : Bool :=
  decide (idx % U32 ∈ mask)

/-- The mate-coordinate key `(rev2, ref_id2, pos2)` compared by the PE
inner loop. -/
def mateKey (m : Metadata) : Nat × Int × Int := (m.rev2, m.ref_id2, m.pos2)

/-- The run condition of the PE inner loop:
`pes[i].rev2 == pes[j].rev2 && pes[i].ref_id2 == pes[j].ref_id2 &&
pes[i].pos2 == pes[j].pos2`. -/
def sameMateKey (a b : Metadata) : Bool :=
  decide (a.rev2 = b.rev2) && decide (a.ref_id2 = b.ref_id2) &&
  decide (a.pos2 = b.pos2)

/-- Inner scan of the PE loop: `if pes[j].score >= pes[best].score
{ best = j }`, scanning `j` upward while carrying the best index and
its score. -/
def bestIdxGeAux : List Metadata → Nat → Nat → Nat → Nat
  | [], _, best, _ => best
  | m :: rest, j, best, bs =>
    if bs ≤ m.score then bestIdxGeAux rest (j + 1) j m.score
    else bestIdxGeAux rest (j + 1) best bs

/-- Best index of a PE run under the `>=` (keep-last-tie) scan,
starting from index 0. -/
def bestIdxGe : List Metadata → Nat
  | [] => 0
  | m :: rest => bestIdxGeAux rest 1 0 m.score

/-- SE scan: `if paired_0[i].score > paired_0[best_idx].score
{ best_idx = i }` — strict `>`, keep-first-tie. -/
def seBestAux : List Metadata → Nat → Nat → Nat → Nat
  | [], _, best, _ => best
  | m :: rest, i, best, bs =>
    if bs < m.score then seBestAux rest (i + 1) i m.score
    else seBestAux rest (i + 1) best bs

/-- Best index of the fragment list under the strict `>` scan. -/
def seBestIdx : List Metadata → Nat
  | [] => 0
  | m :: rest => seBestAux rest 1 0 m.score

/-- PE marking loop `for k in i..j { if k != best_idx
{ mask.insert(idx1 as u32); mask.insert(idx2 as u32); pe_marked += 2 } }`
over a run, with local index `k` starting at the given value. -/
def markRunAux : List Metadata → Nat → Nat → Finset Nat → Nat →
    Finset Nat × Nat
  | [], _, _, mask, c => (mask, c)
  | m :: rest, k, best, mask, c =>
    if k ≠ best then
      markRunAux rest (k + 1) best (maskInsert m.idx2 (maskInsert m.idx1 mask))
        (c + 2)
    else markRunAux rest (k + 1) best mask c

/-- Mark every entry of a run except the one at index `best`. -/
def markRunExcept (run : List Metadata) (best : Nat) (mask : Finset Nat) :
    Finset Nat × Nat :=
  markRunAux run 0 best mask 0

/-- SE marking loop `for i in 0..len { if i != best_idx
{ mask.insert(idx1 as u32); se_only_marked += 1 } }`. -/
def markFragsAux : List Metadata → Nat → Nat → Finset Nat → Nat →
    Finset Nat × Nat
  | [], _, _, mask, c => (mask, c)
  | m :: rest, i, best, mask, c =>
    if i ≠ best then
      markFragsAux rest (i + 1) best (maskInsert m.idx1 mask) (c + 1)
    else markFragsAux rest (i + 1) best mask c

/-- Mark every fragment except the one at index `best`. -/
def markFragsExcept (l : List Metadata) (best : Nat) (mask : Finset Nat) :
    Finset Nat × Nat :=
  markFragsAux l 0 best mask 0

/-- Orphan loop: `for se in &paired_0 { mask.insert(se.idx1 as u32);
orphan_marked += 1 }`. -/
def orphanMark (l : List Metadata) (mask : Finset Nat) : Finset Nat × Nat :=
  l.foldl (fun p se => (maskInsert se.idx1 p.1, p.2 + 1)) (mask, 0)

/-- The outer PE-deduplication `while` loop of `identify_dups`: anchor
at `pes[i]`, extend `j` while the run condition against the anchor
holds, mark all but the best of the run, continue at `i = j`.
The anchor-based inner `while` is the maximal `takeWhile` prefix. -/
def peDedup : List Metadata → Finset Nat → Finset Nat × Nat
  | [], mask => (mask, 0)
  | x :: rest, mask =>
    let run := x :: rest.takeWhile (fun y => sameMateKey x y)
    let mk := markRunExcept run (bestIdxGe run) mask
    let rec2 := peDedup (rest.dropWhile (fun y => sameMateKey x y)) mk.1
    (rec2.1, mk.2 + rec2.2)
termination_by l _ => l.length
decreasing_by
  simp only [List.length_cons]
  refine Nat.lt_succ_of_le ?_
  induction rest with
  | nil => simp [List.dropWhile]
  | cons a t ih =>
    simp only [List.dropWhile]
    split
    · exact le_trans ih (Nat.le_succ _)
    · simp

/-- The run decomposition performed by the PE loop: maximal segments
of consecutive entries matching the anchor's mate key. -/
def peRuns : List Metadata → List (List Metadata)
  | [] => []
  | x :: rest =>
    (x :: rest.takeWhile (fun y => sameMateKey x y)) ::
      peRuns (rest.dropWhile (fun y => sameMateKey x y))
termination_by l => l.length
decreasing_by
  simp only [List.length_cons]
  refine Nat.lt_succ_of_le ?_
  induction rest with
  | nil => simp [List.dropWhile]
  | cons a t ih =>
    simp only [List.dropWhile]
    split
    · exact le_trans ih (Nat.le_succ _)
    · simp

/-- `identify_dups(group, mask, pe_second_ends)`; returns the updated
mask together with `(orphan_marked, pe_marked, se_only_marked)`. -/
def identify_dups (group : List Metadata) (mask : Finset Nat)
    (pe_second_ends : Finset GroupKey) : Finset Nat × Nat × Nat × Nat :=
  match group with
  | [] => (mask, 0, 0, 0)
  | g0 :: _ =>
    let p := group.partition (fun m => m.ref_id2 != -1)
    let pes := p.1
    let ses := p.2
    let paired_0 := ses.filter (fun se => se.paired_end == 0)
    let paired_1 := ses.filter (fun se => se.paired_end == 1)
    let k_pe := pes.length
    let group_pos : GroupKey := (g0.lib_id, g0.ref_id1, g0.pos1, g0.rev1)
    let k_pos := if group_pos ∈ pe_second_ends then 1 else 0
    let k := paired_0.length + paired_1.length
    let total := k + k_pe + k_pos
    let seen_fragment := !paired_0.isEmpty
    let seen_paired_read :=
      !paired_1.isEmpty || decide (0 < k_pe) || decide (0 < k_pos)
    let sePart :=
      if 2 ≤ total ∧ seen_fragment = true then
        if seen_paired_read = true then
          let o := orphanMark paired_0 mask
          (o.1, o.2, 0)
        else if 2 ≤ paired_0.length then
          let f := markFragsExcept paired_0 (seBestIdx paired_0) mask
          (f.1, 0, f.2)
        else (mask, 0, 0)
      else (mask, 0, 0)
    let pePart :=
      if 2 ≤ pes.length then peDedup pes sePart.1 else (sePart.1, 0)
    (pePart.1, sePart.2.1, pePart.2, sePart.2.2)

/-! ## First pass: pair resolver (`main.rs`, first record loop)

A first-pass record is modelled by the values the loop derives from it:
its flags, its name, and the outputs of `get_lib_id`, `get_5p_pos`,
`get_score` and `reference_sequence_id`.
-/

structure Rec1 where
  unmapped : Bool
  secondary : Bool
  supplementary : Bool
  segmented : Bool
  mate_unmapped : Bool
  reverse : Bool
  name : Nat
  lib_id : Int
  ref_id : Int
  pos : Int
  score : Nat
deriving DecidableEq, Repr

/-- A pending-pair entry `(lib_id, ref_id, pos, rev, score, idx)`. -/
structure Pend where
  lib : Int
  ref : Int
  pos : Int
  rev : Bool
  score : Nat
  idx : Nat
deriving DecidableEq, Repr

/-- `HashMap::remove` on the pending-pair map (modelled as an
association list with at most one entry per name). -/
def pendRemove (name : Nat) : List (Nat × Pend) →
    Option Pend × List (Nat × Pend)
  | [] => (none, [])
  | (n, p) :: rest =>
    if n = name then (some p, rest)
    else
      let r := pendRemove name rest
      (r.1, (n, p) :: r.2)

structure Pass1State where
  pending : List (Nat × Pend)
  emitted : List Metadata
  pse : Finset GroupKey
  pe_count : Nat
  se_count : Nat

def pass1Init : Pass1State :=
  { pending := [], emitted := [], pse := ∅, pe_count := 0, se_count := 0 }

/-- One iteration of the first-pass loop at input-order index `idx`. -/
def pass1Step (st : Pass1State) (idx : Nat) (r : Rec1) : Pass1State :=
  if r.unmapped || r.secondary || r.supplementary then st
  else if r.segmented && !r.mate_unmapped then
    match pendRemove r.name st.pending with
    | (some m, pending2) =>
      let c :=
        if r.ref_id < m.ref ∨ (r.ref_id = m.ref ∧ r.pos < m.pos) then
          (r.ref_id, r.pos, r.reverse, idx, m.ref, m.pos, m.rev, m.idx)
        else
          (m.ref, m.pos, m.rev, m.idx, r.ref_id, r.pos, r.reverse, idx)
      { st with
        pending := pending2
        pse := insert (m.lib, c.2.2.2.2.1, c.2.2.2.2.2.1,
          c.2.2.2.2.2.2.1.toNat) st.pse
        emitted := st.emitted ++
          [{ lib_id := m.lib
             ref_id1 := c.1
             pos1 := c.2.1
             rev1 := c.2.2.1.toNat
             ref_id2 := c.2.2.2.2.1
             pos2 := c.2.2.2.2.2.1
             rev2 := c.2.2.2.2.2.2.1.toNat
             score := r.score + m.score
             idx1 := c.2.2.2.1
             idx2 := c.2.2.2.2.2.2.2
             paired_end := 1 }]
        pe_count := st.pe_count + 1 }
    | (none, _) =>
      { st with
        pending := st.pending ++
          [(r.name,
            { lib := r.lib_id, ref := r.ref_id, pos := r.pos,
              rev := r.reverse, score := r.score, idx := idx })] }
  else
    { st with
      emitted := st.emitted ++
        [{ lib_id := r.lib_id
           ref_id1 := r.ref_id
           pos1 := r.pos
           rev1 := r.reverse.toNat
           ref_id2 := -1
           pos2 := 0
           rev2 := 0
           score := r.score
           idx1 := idx
           idx2 := 0
           paired_end := 0 }]
      se_count := st.se_count + 1 }

/-- The whole first-pass loop over `reader.records().enumerate()`. -/
def pass1 (records : List Rec1) : Pass1State :=
  (records.enum.foldl (fun st p => pass1Step st p.1 p.2) pass1Init)

/-- The end-of-input residue sweep: every pending entry is emitted as a
fragment **with `paired_end = 1`**. -/
def residue (pending : List (Nat × Pend)) : List Metadata :=
  pending.map (fun p =>
    { lib_id := p.2.lib
      ref_id1 := p.2.ref
      pos1 := p.2.pos
      rev1 := p.2.rev.toNat
      ref_id2 := -1
      pos2 := 0
      rev2 := 0
      score := p.2.score
      idx1 := p.2.idx
      idx2 := 0
      paired_end := 1 })

/-- All Metadata entries the pipeline produces: the first pass's
emissions followed by the residue sweep. -/
def allProduced (records : List Rec1) : List Metadata :=
  (pass1 records).emitted ++ residue (pass1 records).pending

/-! ## Rewriter (`src/io/mod.rs`, `src/args.rs`, `main.rs` second loop) -/

/-- `Args` (`src/args.rs`). -/
structure Args where
  input : String
  output : String
  remove_duplicates : Bool
  threads : Nat
  batch_size : Nat
  tmp_dir : Option String
  single_threaded : Bool

/-- `FLAG_OFFSET`: byte offset of the flag field in a serialized BAM
record. -/
def FLAG_OFFSET : Nat := 12

/-- `DUPLICATE_FLAG = 0x400`. -/
def DUPLICATE_FLAG : Nat := 0x400

/-- `toggle_duplicate_flag(data, is_duplicate)`: returns the new flag
value (if the record is long enough) and the updated byte vector.
`!DUPLICATE_FLAG` on `u16` is `0xFBFF`. -/
def toggle_duplicate_flag (data : List Nat) (is_dup : Bool) :
    Option Nat × List Nat :=
  if data.length < FLAG_OFFSET + 2 then (none, data)
  else
    let flag := data.getD FLAG_OFFSET 0 + 256 * data.getD (FLAG_OFFSET + 1) 0
    let new_flag :=
      if is_dup then flag ||| DUPLICATE_FLAG else flag &&& 0xFBFF
    (some new_flag,
      (data.set FLAG_OFFSET (new_flag % 256)).set (FLAG_OFFSET + 1)
        ((new_flag >>> 8) % 256))

/-- A second-pass record: its parsed secondary/supplementary flags and
its serialized wire bytes (`record_to_bytes`). -/
structure BamRec where
  secondary : Bool
  supplementary : Bool
  bytes : List Nat

/-- The second-pass rewrite loop of `main`: for every record (indexed
from 0) the flag bytes are toggled unless the record is secondary or
supplementary, and the (possibly updated) bytes are written out.  The
loop never consults `args.remove_duplicates` and drops no record. -/
def rewritePass (args : Args) (mask : Finset Nat) (records : List BamRec) :
    List (List Nat) :=
  records.enum.map (fun p =>
    if !p.2.secondary && !p.2.supplementary then
      (toggle_duplicate_flag p.2.bytes (maskContains p.1 mask)).2
    else p.2.bytes)

/-! ## External sort and k-way merge (`src/io/mod.rs`,
`src/metadata.rs` MergeItem, `main.rs` merge loop)

The derived Rust `Ord` on `Metadata` is the lexicographic order over
the fields in declaration order; it is modelled through iterated
lexicographic products.
-/

/-- The full derived-`Ord` sort key of `Metadata` (all eleven fields in
declaration order). -/
def metaKeyRust (m : Metadata) :
    Lex (Int × Lex (Int × Lex (Int × Lex (Nat × Lex (Nat × Lex (Int ×
      Lex (Int × Lex (Nat × Lex (Nat × Lex (Nat × Nat)))))))))) :=
  toLex (m.lib_id, toLex (m.ref_id1, toLex (m.pos1, toLex (m.rev1,
    toLex (m.rev2, toLex (m.ref_id2, toLex (m.pos2, toLex (m.score,
      toLex (m.idx1, toLex (m.idx2, m.paired_end))))))))))

/-- `a <= b` under the derived Rust `Ord`. -/
def metaRustLe (a b : Metadata) : Prop := metaKeyRust a ≤ metaKeyRust b

/-- `a < b` under the derived Rust `Ord`. -/
def metaRustLt (a b : Metadata) : Prop := metaKeyRust a < metaKeyRust b

instance (a b : Metadata) : Decidable (metaRustLe a b) := by
  unfold metaRustLe
  infer_instance

instance (a b : Metadata) : Decidable (metaRustLt a b) := by
  unfold metaRustLt
  infer_instance

/-- The sort key named by the specification: `lib_id, ref_id1, pos1,
rev1, rev2, ref_id2, pos2, score`, ties broken by `idx1` then `idx2`.
This definition follows the spec wording, to be compared with the
derived order `metaKeyRust`. -/
def metaKeySpec (m : Metadata) :
    Lex (Int × Lex (Int × Lex (Int × Lex (Nat × Lex (Nat × Lex (Int ×
      Lex (Int × Lex (Nat × Lex (Nat × Nat))))))))) :=
  toLex (m.lib_id, toLex (m.ref_id1, toLex (m.pos1, toLex (m.rev1,
    toLex (m.rev2, toLex (m.ref_id2, toLex (m.pos2, toLex (m.score,
      toLex (m.idx1, m.idx2)))))))))

/-- `a <= b` under the specification's order. -/
def metaSpecLe (a b : Metadata) : Prop := metaKeySpec a ≤ metaKeySpec b

/-- `par_sort_unstable` of a spill batch: an (unstable) sort by the
derived `Ord`; modelled by merge sort under the same total order. -/
def rustSortChunk (l : List Metadata) : List Metadata :=
  l.mergeSort (fun a b => decide (metaRustLe a b))

/-- The batching of the first-pass loop: push each entry, spill when
`chunk.len() >= batch_size`, spill the non-empty remainder at the
end. -/
def chunksAux (bs : Nat) : List Metadata → List Metadata →
    List (List Metadata)
  | cur, [] => if cur.isEmpty then [] else [cur]
  | cur, m :: rest =>
    let cur2 := cur ++ [m]
    if bs ≤ cur2.length then cur2 :: chunksAux bs [] rest
    else chunksAux bs cur2 rest

/-- Split the emitted Metadata stream into spill batches. -/
def chunks (bs : Nat) (entries : List Metadata) : List (List Metadata) :=
  chunksAux bs [] entries

/-- Scan the streams for the stream with the minimal head (the
`BinaryHeap` of `MergeItem`s holds one head per non-exhausted reader
and pops a minimal one; ties go to an unspecified stream, modelled as
the first). -/
def pickMinAux : List (List Metadata) → Nat → Option (Nat × Metadata) →
    Option (Nat × Metadata)
  | [], _, acc => acc
  | s :: rest, i, acc =>
    match s with
    | [] => pickMinAux rest (i + 1) acc
    | h :: _ =>
      match acc with
      | none => pickMinAux rest (i + 1) (some (i, h))
      | some (bi, bh) =>
        if metaRustLt h bh then pickMinAux rest (i + 1) (some (i, h))
        else pickMinAux rest (i + 1) (some (bi, bh))

/-- Index and head of a stream with minimal head, if any stream is
non-empty. -/
def pickMin (ss : List (List Metadata)) : Option (Nat × Metadata) :=
  pickMinAux ss 0 none

/-- The heap-based k-way merge loop, with fuel bounding the number of
pops (`kMerge` supplies exactly the total number of elements). -/
def kMergeF : Nat → List (List Metadata) → List Metadata
  | 0, _ => []
  | fuel + 1, ss =>
    match pickMin ss with
    | none => []
    | some (i, h) => h :: kMergeF fuel (ss.set i ((ss.getD i []).tail))

/-- K-way merge of the spill streams. -/
def kMerge (ss : List (List Metadata)) : List Metadata :=
  kMergeF (ss.map List.length).sum ss

/-! ### Concrete inputs used by witnesses and counterexamples -/

/-- A fragment Metadata at a given score and index. -/
def mkFrag (score idx : Nat) : Metadata :=
  { lib_id := 0, ref_id1 := 0, pos1 := 100, rev1 := 0, rev2 := 0,
    ref_id2 := -1, pos2 := 0, score := score, idx1 := idx, idx2 := 0,
    paired_end := 0 }

/-- A PE Metadata sharing the left end `(0, 100, 0)` and the right end
`(1, 200, 1)`, at a given score and indices. -/
def mkPe (score idx1 idx2 : Nat) : Metadata :=
  { lib_id := 0, ref_id1 := 0, pos1 := 100, rev1 := 0, rev2 := 1,
    ref_id2 := 1, pos2 := 200, score := score, idx1 := idx1, idx2 := idx2,
    paired_end := 1 }

/-- A first-pass record that is mapped, paired, mate mapped: it enters
the pending-pair map and, if its mate never arrives, flows out through
the residue sweep. -/
def recPending : Rec1 :=
  { unmapped := false, secondary := false, supplementary := false,
    segmented := true, mate_unmapped := false, reverse := false,
    name := 7, lib_id := 0, ref_id := 0, pos := 100, score := 50 }

/-- The Metadata entry that `allProduced [recPending]` yields through
the residue sweep: a fragment-shaped entry with `paired_end = 1`. -/
def mResidue : Metadata :=
  { lib_id := 0, ref_id1 := 0, pos1 := 100, rev1 := 0, rev2 := 0,
    ref_id2 := -1, pos2 := 0, score := 50, idx1 := 0, idx2 := 0,
    paired_end := 1 }

/-- A first-pass record that is mapped and not segmented: it is
emitted directly as a fragment. -/
def recFrag : Rec1 :=
  { unmapped := false, secondary := false, supplementary := false,
    segmented := false, mate_unmapped := false, reverse := false,
    name := 9, lib_id := 0, ref_id := 0, pos := 100, score := 50 }

/-- Spec scenario 2: three fragments with scores 50/70/40 at indices
0/1/2. -/
def groupC6 : List Metadata := [mkFrag 50 0, mkFrag 70 1, mkFrag 40 2]

/-- Spec scenario 4: two PE entries sharing both ends, scores 70/50. -/
def pesC5 : List Metadata := [mkPe 70 0 1, mkPe 50 2 3]

/-- Concrete `Args` with `remove_duplicates` set. -/
def argsRemove : Args :=
  { input := "in.bam", output := "out.bam", remove_duplicates := true,
    threads := 1, batch_size := 2000000, tmp_dir := none,
    single_threaded := false }

/-- A 14-byte record whose bytes are all zero (flag = 0), not
secondary, not supplementary. -/
def recZero : BamRec :=
  { secondary := false, supplementary := false,
    bytes := [0, 0, 0, 0, 0, 0, 0, 0, 0, 0, 0, 0, 0, 0] }

/-! ### Codec lemmas -/

theorem length_natToLe (k n : Nat) : (natToLe k n).length = k := by
  induction k generalizing n with
  | zero => rfl
  | succ k ih => simp [natToLe, ih]

theorem leToNat_natToLe {k n : Nat} (h : n < 256 ^ k) :
    leToNat (natToLe k n) = n := by
  induction k generalizing n with
  | zero => simp [natToLe, leToNat]; omega
  | succ k ih =>
    have hlt : n / 256 < 256 ^ k := by
      rw [Nat.div_lt_iff_lt_mul (by norm_num)]
      calc n < 256 ^ (k + 1) := h
        _ = 256 ^ k * 256 := by ring
    simp [natToLe, leToNat, ih hlt]
    omega

theorem leToI32_i32ToLe {v : Int} (h : i32Range v) :
    leToI32 (i32ToLe v) = v := by
  obtain ⟨h1, h2⟩ := h
  have hmod : v % 2 ^ 32 = if 0 ≤ v then v else v + 2 ^ 32 := by
    split <;> omega
  have hnn : (0 : Int) ≤ v % 2 ^ 32 := by omega
  have hnlt : (v % 2 ^ 32).toNat < 256 ^ 4 := by
    have : (256 : Int) ^ 4 = 2 ^ 32 := by norm_num
    omega
  unfold i32ToLe leToI32
  rw [leToNat_natToLe hnlt]
  split
  · omega
  · omega

theorem readExact_append {k : Nat} {a rest : List Nat} (h : a.length = k) :
    readExact k (a ++ rest) = some (a, rest) := by
  subst h
  simp [readExact, List.take_left, List.drop_left]

/-- C7 (round-trip), general form over well-formed values. -/
theorem write_read_roundtrip (m : Metadata) (h : m.WF) :
    Metadata.read_from (Metadata.write_to m) = .ok (some m) ∧
    (Metadata.write_to m).length = Metadata.binary_size := by
  obtain ⟨hl, hr1, hp1, hv1, hv2, hr2, hp2, hs, hi1, hi2, hpe⟩ := h
  constructor
  · unfold Metadata.write_to Metadata.read_from
    simp only [List.append_assoc]
    simp only [readExact_append (show (i32ToLe m.lib_id).length = 4 by
        simp [i32ToLe, length_natToLe]),
      readExact_append (show (i32ToLe m.ref_id1).length = 4 by
        simp [i32ToLe, length_natToLe]),
      readExact_append (show (i32ToLe m.pos1).length = 4 by
        simp [i32ToLe, length_natToLe]),
      readExact_append (show ([m.rev1, m.rev2] : List Nat).length = 2 by simp),
      readExact_append (show (i32ToLe m.ref_id2).length = 4 by
        simp [i32ToLe, length_natToLe]),
      readExact_append (show (i32ToLe m.pos2).length = 4 by
        simp [i32ToLe, length_natToLe]),
      readExact_append (show (natToLe 4 m.score).length = 4 from
        length_natToLe 4 m.score),
      readExact_append (show (natToLe 8 m.idx1).length = 8 from
        length_natToLe 8 m.idx1),
      readExact_append (show (natToLe 8 m.idx2).length = 8 from
        length_natToLe 8 m.idx2),
      show readExact 1 [m.paired_end] = some ([m.paired_end], []) from rfl]
    simp only [leToI32_i32ToLe ⟨hl.1, hl.2⟩, leToI32_i32ToLe ⟨hr1.1, hr1.2⟩,
      leToI32_i32ToLe ⟨hp1.1, hp1.2⟩, leToI32_i32ToLe ⟨hr2.1, hr2.2⟩,
      leToI32_i32ToLe ⟨hp2.1, hp2.2⟩,
      leToNat_natToLe (show m.score < 256 ^ 4 by norm_num at hs ⊢; omega),
      leToNat_natToLe (show m.idx1 < 256 ^ 8 by norm_num at hi1 ⊢; omega),
      leToNat_natToLe (show m.idx2 < 256 ^ 8 by norm_num at hi2 ⊢; omega)]
    rfl
  · simp [Metadata.write_to, Metadata.binary_size, i32ToLe, length_natToLe]

/-- C7: decoding the encoding of any (well-formed) Metadata value
yields the value back, and the encoding is exactly 43 bytes long. -/
theorem c7_codec_roundtrip (m : Metadata) (h : m.WF) :
    Metadata.read_from (Metadata.write_to m) = .ok (some m) ∧
    (Metadata.write_to m).length = 43 := by
  obtain ⟨h1, h2⟩ := write_read_roundtrip m h
  exact ⟨h1, by rw [h2]; rfl⟩

/-- C7 witness: the round-trip theorem applied at a concrete value. -/
theorem c7_codec_roundtrip_witness :
    Metadata.read_from (Metadata.write_to mEx) = .ok (some mEx) ∧
    (Metadata.write_to mEx).length = 43 :=
  c7_codec_roundtrip mEx (by decide)

/-- C4 counterexample: the stream `[0]` has length strictly between 0
and 43 bytes, yet `read_from` returns the end-of-stream value
`Ok(None)` instead of a fatal error (the failure of the very first
4-byte read is mapped to end-of-stream). -/
theorem c4_counterexample :
    (0 < ([0] : List Nat).length ∧ ([0] : List Nat).length < 43) ∧
    Metadata.read_from [0] = .ok none :=
  ⟨by decide, rfl⟩

/-- C4 (amended): `read_from` returns `Ok(None)` exactly when fewer
than 4 bytes remain (not only when the stream is empty), a fatal error
exactly when the remaining length is in `[4, 43)`, and a decoded
record exactly when at least 43 bytes remain. -/
theorem readExact_some {k : Nat} {l : List Nat} (h : k ≤ l.length) :
    readExact k l = some (l.take k, l.drop k) := by
  simp [readExact, h]

theorem readExact_none {k : Nat} {l : List Nat} (h : l.length < k) :
    readExact k l = none := by
  unfold readExact
  split
  · exact absurd h (by omega)
  · rfl

theorem c4_read_from_regions (bs : List Nat) :
    (Metadata.read_from bs = .ok none ↔ bs.length < 4) ∧
    (Metadata.read_from bs = .error () ↔ 4 ≤ bs.length ∧ bs.length < 43) ∧
    ((∃ m, Metadata.read_from bs = .ok (some m)) ↔ 43 ≤ bs.length) := by
  have hres : (bs.length < 4 ∧ Metadata.read_from bs = .ok none) ∨
      ((4 ≤ bs.length ∧ bs.length < 43) ∧ Metadata.read_from bs = .error ()) ∨
      (43 ≤ bs.length ∧ ∃ m, Metadata.read_from bs = .ok (some m)) := by
    by_cases h0 : bs.length < 4
    · exact Or.inl ⟨h0, by simp only [Metadata.read_from, readExact_none h0]⟩
    by_cases h1 : bs.length < 8
    · refine Or.inr (Or.inl ⟨⟨by omega, by omega⟩, ?_⟩)
      simp only [Metadata.read_from,
        readExact_some (show 4 ≤ bs.length by omega),
        readExact_none (show (bs.drop 4).length < 4 by simp; omega)]
    by_cases h2 : bs.length < 12
    · refine Or.inr (Or.inl ⟨⟨by omega, by omega⟩, ?_⟩)
      simp only [Metadata.read_from, List.drop_drop,
        readExact_some (show 4 ≤ bs.length by omega),
        readExact_some (show 4 ≤ (bs.drop 4).length by simp; omega),
        readExact_none (show (bs.drop 8).length < 4 by simp; omega)]
    by_cases h3 : bs.length < 14
    · refine Or.inr (Or.inl ⟨⟨by omega, by omega⟩, ?_⟩)
      simp only [Metadata.read_from, List.drop_drop,
        readExact_some (show 4 ≤ bs.length by omega),
        readExact_some (show 4 ≤ (bs.drop 4).length by simp; omega),
        readExact_some (show 4 ≤ (bs.drop 8).length by simp; omega),
        readExact_none (show (bs.drop 12).length < 2 by simp; omega)]
    by_cases h4 : bs.length < 18
    · refine Or.inr (Or.inl ⟨⟨by omega, by omega⟩, ?_⟩)
      simp only [Metadata.read_from, List.drop_drop,
        readExact_some (show 4 ≤ bs.length by omega),
        readExact_some (show 4 ≤ (bs.drop 4).length by simp; omega),
        readExact_some (show 4 ≤ (bs.drop 8).length by simp; omega),
        readExact_some (show 2 ≤ (bs.drop 12).length by simp; omega),
        readExact_none (show (bs.drop 14).length < 4 by simp; omega)]
    by_cases h5 : bs.length < 22
    · refine Or.inr (Or.inl ⟨⟨by omega, by omega⟩, ?_⟩)
      simp only [Metadata.read_from, List.drop_drop,
        readExact_some (show 4 ≤ bs.length by omega),
        readExact_some (show 4 ≤ (bs.drop 4).length by simp; omega),
        readExact_some (show 4 ≤ (bs.drop 8).length by simp; omega),
        readExact_some (show 2 ≤ (bs.drop 12).length by simp; omega),
        readExact_some (show 4 ≤ (bs.drop 14).length by simp; omega),
        readExact_none (show (bs.drop 18).length < 4 by simp; omega)]
    by_cases h6 : bs.length < 26
    · refine Or.inr (Or.inl ⟨⟨by omega, by omega⟩, ?_⟩)
      simp only [Metadata.read_from, List.drop_drop,
        readExact_some (show 4 ≤ bs.length by omega),
        readExact_some (show 4 ≤ (bs.drop 4).length by simp; omega),
        readExact_some (show 4 ≤ (bs.drop 8).length by simp; omega),
        readExact_some (show 2 ≤ (bs.drop 12).length by simp; omega),
        readExact_some (show 4 ≤ (bs.drop 14).length by simp; omega),
        readExact_some (show 4 ≤ (bs.drop 18).length by simp; omega),
        readExact_none (show (bs.drop 22).length < 4 by simp; omega)]
    by_cases h7 : bs.length < 34
    · refine Or.inr (Or.inl ⟨⟨by omega, by omega⟩, ?_⟩)
      simp only [Metadata.read_from, List.drop_drop,
        readExact_some (show 4 ≤ bs.length by omega),
        readExact_some (show 4 ≤ (bs.drop 4).length by simp; omega),
        readExact_some (show 4 ≤ (bs.drop 8).length by simp; omega),
        readExact_some (show 2 ≤ (bs.drop 12).length by simp; omega),
        readExact_some (show 4 ≤ (bs.drop 14).length by simp; omega),
        readExact_some (show 4 ≤ (bs.drop 18).length by simp; omega),
        readExact_some (show 4 ≤ (bs.drop 22).length by simp; omega),
        readExact_none (show (bs.drop 26).length < 8 by simp; omega)]
    by_cases h8 : bs.length < 42
    · refine Or.inr (Or.inl ⟨⟨by omega, by omega⟩, ?_⟩)
      simp only [Metadata.read_from, List.drop_drop,
        readExact_some (show 4 ≤ bs.length by omega),
        readExact_some (show 4 ≤ (bs.drop 4).length by simp; omega),
        readExact_some (show 4 ≤ (bs.drop 8).length by simp; omega),
        readExact_some (show 2 ≤ (bs.drop 12).length by simp; omega),
        readExact_some (show 4 ≤ (bs.drop 14).length by simp; omega),
        readExact_some (show 4 ≤ (bs.drop 18).length by simp; omega),
        readExact_some (show 4 ≤ (bs.drop 22).length by simp; omega),
        readExact_some (show 8 ≤ (bs.drop 26).length by simp; omega),
        readExact_none (show (bs.drop 34).length < 8 by simp; omega)]
    by_cases h9 : bs.length < 43
    · refine Or.inr (Or.inl ⟨⟨by omega, by omega⟩, ?_⟩)
      simp only [Metadata.read_from, List.drop_drop,
        readExact_some (show 4 ≤ bs.length by omega),
        readExact_some (show 4 ≤ (bs.drop 4).length by simp; omega),
        readExact_some (show 4 ≤ (bs.drop 8).length by simp; omega),
        readExact_some (show 2 ≤ (bs.drop 12).length by simp; omega),
        readExact_some (show 4 ≤ (bs.drop 14).length by simp; omega),
        readExact_some (show 4 ≤ (bs.drop 18).length by simp; omega),
        readExact_some (show 4 ≤ (bs.drop 22).length by simp; omega),
        readExact_some (show 8 ≤ (bs.drop 26).length by simp; omega),
        readExact_some (show 8 ≤ (bs.drop 34).length by simp; omega),
        readExact_none (show (bs.drop 42).length < 1 by simp; omega)]
    · refine Or.inr (Or.inr ⟨by omega,
        { lib_id := leToI32 (bs.take 4)
          ref_id1 := leToI32 ((bs.drop 4).take 4)
          pos1 := leToI32 ((bs.drop 8).take 4)
          rev1 := ((bs.drop 12).take 2).getD 0 0
          rev2 := ((bs.drop 12).take 2).getD 1 0
          ref_id2 := leToI32 ((bs.drop 14).take 4)
          pos2 := leToI32 ((bs.drop 18).take 4)
          score := leToNat ((bs.drop 22).take 4)
          idx1 := leToNat ((bs.drop 26).take 8)
          idx2 := leToNat ((bs.drop 34).take 8)
          paired_end := ((bs.drop 42).take 1).getD 0 0 }, ?_⟩)
      simp only [Metadata.read_from, List.drop_drop,
        readExact_some (show 4 ≤ bs.length by omega),
        readExact_some (show 4 ≤ (bs.drop 4).length by simp; omega),
        readExact_some (show 4 ≤ (bs.drop 8).length by simp; omega),
        readExact_some (show 2 ≤ (bs.drop 12).length by simp; omega),
        readExact_some (show 4 ≤ (bs.drop 14).length by simp; omega),
        readExact_some (show 4 ≤ (bs.drop 18).length by simp; omega),
        readExact_some (show 4 ≤ (bs.drop 22).length by simp; omega),
        readExact_some (show 8 ≤ (bs.drop 26).length by simp; omega),
        readExact_some (show 8 ≤ (bs.drop 34).length by simp; omega),
        readExact_some (show 1 ≤ (bs.drop 42).length by simp; omega)]
  rcases hres with ⟨hlt, heq⟩ | ⟨⟨hge, hlt⟩, heq⟩ | ⟨hge, m, heq⟩ <;>
    rw [heq] <;>
    refine ⟨?_, ?_, ?_⟩ <;> simp <;> omega

/-! ### Mask monotonicity -/

theorem maskInsert_subset (idx : Nat) (mask : Finset Nat) :
    mask ⊆ maskInsert idx mask :=
  Finset.subset_insert _ _

theorem markRunAux_subset (l : List Metadata) (k best : Nat)
    (mask : Finset Nat) (c : Nat) : mask ⊆ (markRunAux l k best mask c).1 := by
  induction l generalizing k mask c with
  | nil => exact Finset.Subset.refl _
  | cons m rest ih =>
    unfold markRunAux
    split
    · exact (maskInsert_subset _ _).trans
        ((maskInsert_subset _ _).trans (ih _ _ _))
    · exact ih _ _ _

theorem markFragsAux_subset (l : List Metadata) (i best : Nat)
    (mask : Finset Nat) (c : Nat) :
    mask ⊆ (markFragsAux l i best mask c).1 := by
  induction l generalizing i mask c with
  | nil => exact Finset.Subset.refl _
  | cons m rest ih =>
    unfold markFragsAux
    split
    · exact (maskInsert_subset _ _).trans (ih _ _ _)
    · exact ih _ _ _

theorem orphanFold_subset (l : List Metadata) (acc : Finset Nat × Nat) :
    acc.1 ⊆ (l.foldl (fun p se => (maskInsert se.idx1 p.1, p.2 + 1)) acc).1 := by
  induction l generalizing acc with
  | nil => exact Finset.Subset.refl _
  | cons m rest ih =>
    simp only [List.foldl_cons]
    exact (maskInsert_subset m.idx1 acc.1).trans
      (ih (maskInsert m.idx1 acc.1, acc.2 + 1))

theorem orphanMark_subset (l : List Metadata) (mask : Finset Nat) :
    mask ⊆ (orphanMark l mask).1 :=
  orphanFold_subset l (mask, 0)

theorem peDedup_subset (l : List Metadata) (mask : Finset Nat) :
    mask ⊆ (peDedup l mask).1 := by
  induction l, mask using peDedup.induct with
  | case1 mask => simp [peDedup]
  | case2 x rest mask run mk =>
    rename_i ih
    unfold peDedup
    dsimp only at ih ⊢
    exact (markRunAux_subset _ _ _ _ _).trans ih

/-- C10: `identify_dups` only ever adds to the duplicate-index set:
every index contained in the mask before the call is still contained
after it, for every group, every PE-second-end set and every prior
mask. -/
theorem c10_mask_monotone (group : List Metadata) (mask : Finset Nat)
    (pse : Finset GroupKey) : mask ⊆ (identify_dups group mask pse).1 := by
  cases group with
  | nil => exact Finset.Subset.refl _
  | cons g0 rest =>
    unfold identify_dups
    dsimp only
    repeat' split
    all_goals first
      | exact Finset.Subset.refl _
      | exact peDedup_subset _ _
      | exact orphanMark_subset _ _
      | exact markFragsAux_subset _ _ _ _ _
      | exact (orphanMark_subset _ _).trans (peDedup_subset _ _)
      | exact (markFragsAux_subset _ _ _ _ _).trans (peDedup_subset _ _)

/-- C3: the code silently truncates 64-bit input-order indices to
32 bits.  With a group of two fragments whose lower-scoring one sits at
input-order index `2^32`, `identify_dups` inserts `(2^32) as u32 = 0`
into the duplicate-index set — flagging the unrelated record 0 — and
the rewriter's `contains(idx as u32)` query for record `2^32` answers
`true` on the set `{0}`.  No widening or refusal happens anywhere. -/
theorem c3_truncation_silent :
    0 ∈ (identify_dups [mkFrag 10 (2 ^ 32), mkFrag 50 1] ∅ ∅).1 ∧
    (2 ^ 32) ∉ (identify_dups [mkFrag 10 (2 ^ 32), mkFrag 50 1] ∅ ∅).1 ∧
    maskContains (2 ^ 32) {0} = true := by decide

/-- C1: the rewrite loop never consults `args.remove_duplicates`.
With the flag set and record index 0 in the duplicate-index set, the
(non-secondary, non-supplementary) record is still written — with the
DUPLICATE bit 0x400 set in its flag bytes — instead of being
dropped. -/
theorem c1_remove_flag_ignored :
    argsRemove.remove_duplicates = true ∧
    rewritePass argsRemove {0} [recZero] =
      [[0, 0, 0, 0, 0, 0, 0, 0, 0, 0, 0, 0, 0, 4]] := by decide

/-! ### Rewriter frame property -/

theorem getD_set_ne {l : List Nat} {i j : Nat} (h : i ≠ j) (a : Nat) :
    (l.set i a).getD j 0 = l.getD j 0 := by
  simp [List.getD_eq_getElem?_getD, List.getElem?_set, h]

theorem getD_set_self {l : List Nat} {i : Nat} (h : i < l.length) (a : Nat) :
    (l.set i a).getD i 0 = a := by
  simp [List.getD_eq_getElem?_getD, List.getElem?_set, h]

theorem fbff_testBit {k : Nat} (h : k < 16) (h10 : k ≠ 10) :
    (0xFBFF : Nat).testBit k = true := by
  interval_cases k <;> first | (exact absurd rfl h10) | decide

/-- C9: for a record of at least 14 bytes, `toggle_duplicate_flag`
changes at most the two little-endian flag bytes at offset 12, and the
new flag value differs from the old one at most in bit `0x400`
(bit 10), which is set or cleared according to `is_dup`. -/
theorem c9_toggle_frame (data : List Nat) (is_dup : Bool)
    (hlen : 14 ≤ data.length) (hbytes : ∀ b ∈ data, b < 256) :
    (toggle_duplicate_flag data is_dup).2.length = data.length ∧
    (∀ i, i ≠ 12 → i ≠ 13 →
      (toggle_duplicate_flag data is_dup).2.getD i 0 = data.getD i 0) ∧
    (∃ nf, (toggle_duplicate_flag data is_dup).1 = some nf ∧ nf < 2 ^ 16 ∧
      (∀ k, k ≠ 10 →
        nf.testBit k = (data.getD 12 0 + 256 * data.getD 13 0).testBit k) ∧
      nf.testBit 10 = is_dup ∧
      (toggle_duplicate_flag data is_dup).2.getD 12 0 = nf % 256 ∧
      (toggle_duplicate_flag data is_dup).2.getD 13 0 = (nf >>> 8) % 256) := by
  have h12 : data.getD 12 0 < 256 := by
    rw [List.getD_eq_getElem data 0 (by omega)]
    exact hbytes _ (List.getElem_mem _)
  have h13 : data.getD 13 0 < 256 := by
    rw [List.getD_eq_getElem data 0 (by omega)]
    exact hbytes _ (List.getElem_mem _)
  have hflt : data.getD 12 0 + 256 * data.getD 13 0 < 2 ^ 16 := by omega
  unfold toggle_duplicate_flag FLAG_OFFSET DUPLICATE_FLAG
  rw [if_neg (by omega)]
  dsimp only
  refine ⟨by simp, fun i h12i h13i => ?_, ?_⟩
  · rw [getD_set_ne (by omega), getD_set_ne (by omega)]
  · refine ⟨_, rfl, ?_, ?_, ?_, ?_, ?_⟩
    · cases is_dup
      · simpa using Nat.lt_of_le_of_lt Nat.and_le_left hflt
      · simpa using Nat.or_lt_two_pow hflt (by norm_num)
    · intro k hk
      cases is_dup
      · rw [show (if false = true then
            data.getD 12 0 + 256 * data.getD 13 0 ||| 1024
          else (data.getD 12 0 + 256 * data.getD 13 0) &&& 0xFBFF) =
            (data.getD 12 0 + 256 * data.getD 13 0) &&& 0xFBFF by simp]
        rw [Nat.testBit_and]
        by_cases hk16 : k < 16
        · rw [fbff_testBit hk16 hk, Bool.and_true]
        · have hfb : (data.getD 12 0 + 256 * data.getD 13 0).testBit k =
              false :=
            Nat.testBit_lt_two_pow (Nat.lt_of_lt_of_le hflt
              (Nat.pow_le_pow_right (by norm_num) (by omega)))
          rw [hfb, Bool.false_and]
      · rw [show (if true = true then
            data.getD 12 0 + 256 * data.getD 13 0 ||| 1024
          else (data.getD 12 0 + 256 * data.getD 13 0) &&& 0xFBFF) =
            data.getD 12 0 + 256 * data.getD 13 0 ||| 1024 by simp]
        rw [Nat.testBit_or, show (1024 : Nat) = 2 ^ 10 by norm_num,
          Nat.testBit_two_pow,
          decide_eq_false (show ¬(10 = k) from fun h => hk h.symm)]
        simp
    · cases is_dup
      · rw [show (if false = true then
            data.getD 12 0 + 256 * data.getD 13 0 ||| 1024
          else (data.getD 12 0 + 256 * data.getD 13 0) &&& 0xFBFF) =
            (data.getD 12 0 + 256 * data.getD 13 0) &&& 0xFBFF by simp]
        rw [Nat.testBit_and]
        simp [show (0xFBFF : Nat).testBit 10 = false by decide]
      · rw [show (if true = true then
            data.getD 12 0 + 256 * data.getD 13 0 ||| 1024
          else (data.getD 12 0 + 256 * data.getD 13 0) &&& 0xFBFF) =
            data.getD 12 0 + 256 * data.getD 13 0 ||| 1024 by simp]
        rw [Nat.testBit_or, show (1024 : Nat) = 2 ^ 10 by norm_num,
          Nat.testBit_two_pow]
        simp
    · rw [getD_set_ne (by omega), getD_set_self (by omega)]
    · rw [getD_set_self (by simp; omega)]

/-- C9 witness: the frame theorem applied at a concrete 14-byte
record. -/
theorem c9_toggle_frame_witness :
    (toggle_duplicate_flag recZero.bytes true).2.length =
      recZero.bytes.length ∧
    (∀ i, i ≠ 12 → i ≠ 13 →
      (toggle_duplicate_flag recZero.bytes true).2.getD i 0 =
        recZero.bytes.getD i 0) ∧
    (∃ nf, (toggle_duplicate_flag recZero.bytes true).1 = some nf ∧
      nf < 2 ^ 16 ∧
      (∀ k, k ≠ 10 → nf.testBit k =
        (recZero.bytes.getD 12 0 + 256 * recZero.bytes.getD 13 0).testBit k) ∧
      nf.testBit 10 = true ∧
      (toggle_duplicate_flag recZero.bytes true).2.getD 12 0 = nf % 256 ∧
      (toggle_duplicate_flag recZero.bytes true).2.getD 13 0 =
        (nf >>> 8) % 256) :=
  c9_toggle_frame recZero.bytes true (by decide) (by decide)

/-! ### First-pass Metadata invariant -/

theorem pass1_emitted_inv (l : List (Nat × Rec1)) (st : Pass1State)
    (h : ∀ m ∈ st.emitted,
      (m.paired_end = 0 → m.ref_id2 = -1) ∧ (m.ref_id2 ≠ -1 → m.paired_end = 1)) :
    ∀ m ∈ (l.foldl (fun st p => pass1Step st p.1 p.2) st).emitted,
      (m.paired_end = 0 → m.ref_id2 = -1) ∧
      (m.ref_id2 ≠ -1 → m.paired_end = 1) := by
  induction l generalizing st with
  | nil => exact h
  | cons p rest ih =>
    simp only [List.foldl_cons]
    refine ih _ ?_
    unfold pass1Step
    repeat' split
    all_goals try exact h
    all_goals intro m hm
    all_goals simp only [List.mem_append, List.mem_singleton] at hm
    all_goals rcases hm with hm | hm
    all_goals try exact h m hm
    all_goals subst hm
    all_goals simp

/-- C2 counterexample: a paired, mate-mapped record whose mate never
arrives flows out of the residue sweep as an entry with
`ref_id2 = -1` **and** `paired_end = 1`, violating the claimed
equivalence `ref_id2 = -1 ⇔ paired_end = 0`. -/
theorem c2_counterexample :
    mResidue ∈ allProduced [recPending] ∧
    ¬(mResidue.ref_id2 = -1 ↔ mResidue.paired_end = 0) := by decide

/-- C2 (amended): for every Metadata entry the pipeline produces,
`paired_end = 0` implies `ref_id2 = -1`, and `ref_id2 ≠ -1` implies
`paired_end = 1`.  The converse direction fails: residue-swept
unmatched mates carry `ref_id2 = -1` with `paired_end = 1`. -/
theorem c2_produced_invariant (records : List Rec1) :
    ∀ m ∈ allProduced records,
      (m.paired_end = 0 → m.ref_id2 = -1) ∧
      (m.ref_id2 ≠ -1 → m.paired_end = 1) := by
  intro m hm
  rw [allProduced, List.mem_append] at hm
  rcases hm with hm | hm
  · exact pass1_emitted_inv _ pass1Init (by simp [pass1Init]) m hm
  · simp only [residue, List.mem_map] at hm
    obtain ⟨p, _, hp⟩ := hm
    subst hp
    simp

/-- C2 witness: the amended invariant applied to the entry emitted for
a concrete single fragment record. -/
theorem c2_produced_invariant_witness :
    (mResidue.paired_end = 0 → mResidue.ref_id2 = -1) ∧
    (mResidue.ref_id2 ≠ -1 → mResidue.paired_end = 1) :=
  c2_produced_invariant [recPending] mResidue (by decide)

/-! ### Scan-loop characterizations -/

theorem getD_mem {l : List Metadata} {k : Nat} (h : k < l.length) :
    l.getD k mZero ∈ l := by
  rw [List.getD_eq_getElem l mZero h]
  exact List.getElem_mem h

/-- The strict-`>` scan keeps the **first** index attaining the
maximum score. -/
theorem seBestAux_spec (l : List Metadata) (j best bs : Nat) :
    (seBestAux l j best bs = best ∧ ∀ m ∈ l, m.score ≤ bs) ∨
    (∃ i, i < l.length ∧ seBestAux l j best bs = j + i ∧
      bs < (l.getD i mZero).score ∧
      (∀ i2, i2 < l.length →
        (l.getD i2 mZero).score ≤ (l.getD i mZero).score) ∧
      (∀ i2, i2 < l.length → i2 < i →
        (l.getD i2 mZero).score < (l.getD i mZero).score)) := by
  induction l generalizing j best bs with
  | nil => exact Or.inl ⟨rfl, by simp⟩
  | cons m rest ih =>
    unfold seBestAux
    by_cases hc : bs < m.score
    · rw [if_pos hc]
      rcases ih (j + 1) j m.score with ⟨he, hall⟩ | ⟨i, hi, he, hbs, hmax, hfirst⟩
      · refine Or.inr ⟨0, by simp, by omega, by simpa using hc, ?_, ?_⟩
        · intro i2 h2
          cases i2 with
          | zero => simp
          | succ k =>
            simp only [List.getD_cons_succ, List.getD_cons_zero]
            exact hall _ (getD_mem (by simpa using h2))
        · intro i2 _ h2
          omega
      · refine Or.inr ⟨i + 1, by simpa using hi, by omega, ?_, ?_, ?_⟩
        · simpa using lt_trans hc hbs
        · intro i2 h2
          cases i2 with
          | zero => simpa using le_of_lt hbs
          | succ k => simpa using hmax k (by simpa using h2)
        · intro i2 h2 hlt
          cases i2 with
          | zero => simpa using hbs
          | succ k => simpa using hfirst k (by simpa using h2) (by omega)
    · rw [if_neg hc]
      rcases ih (j + 1) best bs with ⟨he, hall⟩ | ⟨i, hi, he, hbs, hmax, hfirst⟩
      · refine Or.inl ⟨he, ?_⟩
        intro a ha
        rcases List.mem_cons.1 ha with rfl | ha
        · omega
        · exact hall _ ha
      · refine Or.inr ⟨i + 1, by simpa using hi, by omega, by simpa using hbs,
          ?_, ?_⟩
        · intro i2 h2
          cases i2 with
          | zero => simp only [List.getD_cons_zero, List.getD_cons_succ]; omega
          | succ k => simpa using hmax k (by simpa using h2)
        · intro i2 h2 hlt
          cases i2 with
          | zero => simp only [List.getD_cons_zero, List.getD_cons_succ]; omega
          | succ k => simpa using hfirst k (by simpa using h2) (by omega)

/-- The `>=` scan keeps the **last** index attaining the maximum
score. -/
theorem bestIdxGeAux_spec (l : List Metadata) (j best bs : Nat) :
    (bestIdxGeAux l j best bs = best ∧ ∀ m ∈ l, m.score < bs) ∨
    (∃ i, i < l.length ∧ bestIdxGeAux l j best bs = j + i ∧
      bs ≤ (l.getD i mZero).score ∧
      (∀ i2, i2 < l.length →
        (l.getD i2 mZero).score ≤ (l.getD i mZero).score) ∧
      (∀ i2, i2 < l.length → i < i2 →
        (l.getD i2 mZero).score < (l.getD i mZero).score)) := by
  induction l generalizing j best bs with
  | nil => exact Or.inl ⟨rfl, by simp⟩
  | cons m rest ih =>
    unfold bestIdxGeAux
    by_cases hc : bs ≤ m.score
    · rw [if_pos hc]
      rcases ih (j + 1) j m.score with ⟨he, hall⟩ | ⟨i, hi, he, hbs, hmax, hlast⟩
      · refine Or.inr ⟨0, by simp, by omega, by simpa using hc, ?_, ?_⟩
        · intro i2 h2
          cases i2 with
          | zero => simp
          | succ k =>
            simp only [List.getD_cons_succ, List.getD_cons_zero]
            exact le_of_lt (hall _ (getD_mem (by simpa using h2)))
        · intro i2 h2 hlt
          cases i2 with
          | zero => omega
          | succ k =>
            simp only [List.getD_cons_succ, List.getD_cons_zero]
            exact hall _ (getD_mem (by simpa using h2))
      · refine Or.inr ⟨i + 1, by simpa using hi, by omega, ?_, ?_, ?_⟩
        · simpa using le_trans hc hbs
        · intro i2 h2
          cases i2 with
          | zero => simpa using hbs
          | succ k => simpa using hmax k (by simpa using h2)
        · intro i2 h2 hlt
          cases i2 with
          | zero => omega
          | succ k => simpa using hlast k (by simpa using h2) (by omega)
    · rw [if_neg hc]
      rcases ih (j + 1) best bs with ⟨he, hall⟩ | ⟨i, hi, he, hbs, hmax, hlast⟩
      · refine Or.inl ⟨he, ?_⟩
        intro a ha
        rcases List.mem_cons.1 ha with rfl | ha
        · omega
        · exact hall _ ha
      · refine Or.inr ⟨i + 1, by simpa using hi, by omega, by simpa using hbs,
          ?_, ?_⟩
        · intro i2 h2
          cases i2 with
          | zero =>
            simp only [List.getD_cons_zero, List.getD_cons_succ]
            have := hbs
            omega
          | succ k => simpa using hmax k (by simpa using h2)
        · intro i2 h2 hlt
          cases i2 with
          | zero => omega
          | succ k => simpa using hlast k (by simpa using h2) (by omega)

/-- First-argmax characterization of `seBestIdx` on a non-empty
list. -/
theorem seBestIdx_spec (l : List Metadata) (h : l ≠ []) :
    seBestIdx l < l.length ∧
    (∀ k, k < l.length →
      (l.getD k mZero).score ≤ (l.getD (seBestIdx l) mZero).score) ∧
    (∀ k, k < l.length → k < seBestIdx l →
      (l.getD k mZero).score < (l.getD (seBestIdx l) mZero).score) := by
  match l with
  | [] => exact absurd rfl h
  | m :: rest =>
    unfold seBestIdx
    dsimp only
    rcases seBestAux_spec rest 1 0 m.score with ⟨he, hall⟩ |
      ⟨i, hi, he, hbs, hmax, hfirst⟩
    · rw [he]
      refine ⟨by simp, ?_, ?_⟩
      · intro k hk
        cases k with
        | zero => simp
        | succ k2 =>
          simp only [List.getD_cons_succ, List.getD_cons_zero]
          exact hall _ (getD_mem (by simpa using hk))
      · intro k _ hk
        omega
    · rw [he, Nat.add_comm 1 i]
      refine ⟨by simp only [List.length_cons]; omega, ?_, ?_⟩
      · intro k hk
        cases k with
        | zero =>
          simp only [List.getD_cons_zero, List.getD_cons_succ]
          exact le_of_lt hbs
        | succ k2 =>
          simp only [List.getD_cons_succ]
          exact hmax k2 (by simpa using hk)
      · intro k hk hlt
        cases k with
        | zero =>
          simp only [List.getD_cons_zero, List.getD_cons_succ]
          exact hbs
        | succ k2 =>
          simp only [List.getD_cons_succ]
          exact hfirst k2 (by simpa using hk) (by omega)

/-- Last-argmax characterization of `bestIdxGe` on a non-empty
list. -/
theorem bestIdxGe_spec (l : List Metadata) (h : l ≠ []) :
    bestIdxGe l < l.length ∧
    (∀ k, k < l.length →
      (l.getD k mZero).score ≤ (l.getD (bestIdxGe l) mZero).score) ∧
    (∀ k, k < l.length → bestIdxGe l < k →
      (l.getD k mZero).score < (l.getD (bestIdxGe l) mZero).score) := by
  match l with
  | [] => exact absurd rfl h
  | m :: rest =>
    unfold bestIdxGe
    dsimp only
    rcases bestIdxGeAux_spec rest 1 0 m.score with ⟨he, hall⟩ |
      ⟨i, hi, he, hbs, hmax, hlast⟩
    · rw [he]
      refine ⟨by simp, ?_, ?_⟩
      · intro k hk
        cases k with
        | zero => simp
        | succ k2 =>
          simp only [List.getD_cons_succ, List.getD_cons_zero]
          exact le_of_lt (hall _ (getD_mem (by simpa using hk)))
      · intro k hk hlt
        cases k with
        | zero => omega
        | succ k2 =>
          simp only [List.getD_cons_succ, List.getD_cons_zero]
          exact hall _ (getD_mem (by simpa using hk))
    · rw [he, Nat.add_comm 1 i]
      refine ⟨by simp only [List.length_cons]; omega, ?_, ?_⟩
      · intro k hk
        cases k with
        | zero =>
          simp only [List.getD_cons_zero, List.getD_cons_succ]
          exact hbs
        | succ k2 =>
          simp only [List.getD_cons_succ]
          exact hmax k2 (by simpa using hk)
      · intro k hk hlt
        cases k with
        | zero => omega
        | succ k2 =>
          simp only [List.getD_cons_succ]
          exact hlast k2 (by simpa using hk) (by omega)


/-! ### Marking-loop characterizations -/

theorem mem_maskInsert {x idx : Nat} {mask : Finset Nat} :
    x ∈ maskInsert idx mask ↔ x = idx % U32 ∨ x ∈ mask :=
  Finset.mem_insert

theorem markFragsAux_mem (l : List Metadata) (i0 best : Nat)
    (mask : Finset Nat) (c : Nat) (x : Nat) :
    x ∈ (markFragsAux l i0 best mask c).1 ↔ x ∈ mask ∨
      ∃ k, k < l.length ∧ i0 + k ≠ best ∧
        x = (l.getD k mZero).idx1 % U32 := by
  induction l generalizing i0 mask c with
  | nil => simp [markFragsAux]
  | cons m rest ih =>
    unfold markFragsAux
    split
    · rw [ih]
      constructor
      · rintro (hx | ⟨k, hk, hne, hx⟩)
        · rcases mem_maskInsert.1 hx with hx | hx
          · exact Or.inr ⟨0, by simp, by simpa using ‹i0 ≠ best›, by simpa⟩
          · exact Or.inl hx
        · exact Or.inr ⟨k + 1, by simpa using hk, by omega, by simpa using hx⟩
      · rintro (hx | ⟨k, hk, hne, hx⟩)
        · exact Or.inl (mem_maskInsert.2 (Or.inr hx))
        · cases k with
          | zero =>
            exact Or.inl (mem_maskInsert.2 (Or.inl (by simpa using hx)))
          | succ k2 =>
            exact Or.inr ⟨k2, by simpa using hk, by omega, by simpa using hx⟩
    · rw [ih]
      constructor
      · rintro (hx | ⟨k, hk, hne, hx⟩)
        · exact Or.inl hx
        · exact Or.inr ⟨k + 1, by simpa using hk, by omega, by simpa using hx⟩
      · rintro (hx | ⟨k, hk, hne, hx⟩)
        · exact Or.inl hx
        · cases k with
          | zero => exact absurd (by omega) hne
          | succ k2 =>
            exact Or.inr ⟨k2, by simpa using hk, by omega, by simpa using hx⟩

theorem markFragsAux_count (l : List Metadata) (i0 best : Nat)
    (mask : Finset Nat) (c : Nat) :
    (markFragsAux l i0 best mask c).2 =
      c + l.length - (if i0 ≤ best ∧ best < i0 + l.length then 1 else 0) := by
  induction l generalizing i0 mask c with
  | nil =>
    simp only [markFragsAux, List.length_nil, Nat.add_zero]
    split_ifs <;> omega
  | cons m rest ih =>
    unfold markFragsAux
    split
    · rw [ih]
      simp only [List.length_cons]
      split_ifs <;> omega
    · rw [ih]
      simp only [List.length_cons]
      split_ifs <;> omega

theorem markRunAux_mem (l : List Metadata) (i0 best : Nat)
    (mask : Finset Nat) (c : Nat) (x : Nat) :
    x ∈ (markRunAux l i0 best mask c).1 ↔ x ∈ mask ∨
      ∃ k, k < l.length ∧ i0 + k ≠ best ∧
        (x = (l.getD k mZero).idx1 % U32 ∨
         x = (l.getD k mZero).idx2 % U32) := by
  induction l generalizing i0 mask c with
  | nil => simp [markRunAux]
  | cons m rest ih =>
    unfold markRunAux
    split
    · rw [ih]
      constructor
      · rintro (hx | ⟨k, hk, hne, hx⟩)
        · rcases mem_maskInsert.1 hx with hx | hx
          · exact Or.inr ⟨0, by simp, by simpa using ‹i0 ≠ best›,
              Or.inr (by simpa)⟩
          · rcases mem_maskInsert.1 hx with hx | hx
            · exact Or.inr ⟨0, by simp, by simpa using ‹i0 ≠ best›,
                Or.inl (by simpa)⟩
            · exact Or.inl hx
        · exact Or.inr ⟨k + 1, by simpa using hk, by omega, by simpa using hx⟩
      · rintro (hx | ⟨k, hk, hne, hx⟩)
        · exact Or.inl (mem_maskInsert.2 (Or.inr (mem_maskInsert.2
            (Or.inr hx))))
        · cases k with
          | zero =>
            rcases hx with hx | hx
            · exact Or.inl (mem_maskInsert.2 (Or.inr (mem_maskInsert.2
                (Or.inl (by simpa using hx)))))
            · exact Or.inl (mem_maskInsert.2 (Or.inl (by simpa using hx)))
          | succ k2 =>
            exact Or.inr ⟨k2, by simpa using hk, by omega, by simpa using hx⟩
    · rw [ih]
      constructor
      · rintro (hx | ⟨k, hk, hne, hx⟩)
        · exact Or.inl hx
        · exact Or.inr ⟨k + 1, by simpa using hk, by omega, by simpa using hx⟩
      · rintro (hx | ⟨k, hk, hne, hx⟩)
        · exact Or.inl hx
        · cases k with
          | zero => exact absurd (by omega) hne
          | succ k2 =>
            exact Or.inr ⟨k2, by simpa using hk, by omega, by simpa using hx⟩

theorem markRunAux_count (l : List Metadata) (i0 best : Nat)
    (mask : Finset Nat) (c : Nat) :
    (markRunAux l i0 best mask c).2 =
      c + 2 * l.length -
        (if i0 ≤ best ∧ best < i0 + l.length then 2 else 0) := by
  induction l generalizing i0 mask c with
  | nil =>
    simp only [markRunAux, List.length_nil, Nat.mul_zero, Nat.add_zero]
    split_ifs <;> omega
  | cons m rest ih =>
    unfold markRunAux
    split
    · rw [ih]
      simp only [List.length_cons]
      split_ifs <;> omega
    · rw [ih]
      simp only [List.length_cons]
      split_ifs <;> omega

/-! ### Run decomposition -/

theorem sameMateKey_iff {a b : Metadata} :
    sameMateKey a b = true ↔ mateKey a = mateKey b := by
  unfold sameMateKey mateKey
  simp [Prod.ext_iff, and_assoc]

theorem dropWhile_head_false {p : Metadata → Bool} {l : List Metadata}
    {y : Metadata} {t : List Metadata} (h : l.dropWhile p = y :: t) :
    p y = false := by
  induction l with
  | nil => simp [List.dropWhile] at h
  | cons a l2 ih =>
    rw [List.dropWhile] at h
    cases hpa : p a with
    | true =>
      simp only [hpa] at h
      exact ih h
    | false =>
      simp only [hpa] at h
      cases h
      exact hpa

theorem peRuns_join (l : List Metadata) : (peRuns l).flatten = l := by
  induction l using peRuns.induct with
  | case1 => simp [peRuns]
  | case2 x rest ih =>
    unfold peRuns
    simp only [List.flatten_cons, ih, List.cons_append]
    rw [List.takeWhile_append_dropWhile]

theorem peRuns_ne_nil (l : List Metadata) :
    ∀ run ∈ peRuns l, run ≠ [] := by
  induction l using peRuns.induct with
  | case1 => simp [peRuns]
  | case2 x rest ih =>
    unfold peRuns
    intro run hrun
    rcases List.mem_cons.1 hrun with rfl | hrun
    · simp
    · exact ih run hrun

theorem peRuns_key_const (l : List Metadata) :
    ∀ run ∈ peRuns l, ∀ a ∈ run, ∀ b ∈ run, mateKey a = mateKey b := by
  induction l using peRuns.induct with
  | case1 => simp [peRuns]
  | case2 x rest ih =>
    unfold peRuns
    intro run hrun a ha b hb
    rcases List.mem_cons.1 hrun with rfl | hrun
    · have key : ∀ c ∈ x :: rest.takeWhile (fun y => sameMateKey x y),
          mateKey c = mateKey x := by
        intro c hc
        rcases List.mem_cons.1 hc with rfl | hc
        · rfl
        · exact (sameMateKey_iff.1 (List.mem_takeWhile_imp hc)).symm
      rw [key a ha, key b hb]
    · exact ih run hrun a ha b hb

theorem peRuns_head_key (l : List Metadata) (s : List Metadata)
    (rest2 : List (List Metadata)) (h : peRuns l = s :: rest2) :
    ∃ y t, l = y :: t ∧ ∀ b ∈ s, mateKey b = mateKey y := by
  match l with
  | [] => simp [peRuns] at h
  | x :: rest =>
    rw [peRuns] at h
    refine ⟨x, rest, rfl, ?_⟩
    intro b hb
    have hs : s = x :: rest.takeWhile (fun y => sameMateKey x y) :=
      (List.cons.injEq _ _ _ _ ▸ h).1.symm
    subst hs
    rcases List.mem_cons.1 hb with rfl | hb
    · rfl
    · exact (sameMateKey_iff.1 (List.mem_takeWhile_imp hb)).symm

theorem peRuns_chain (l : List Metadata) :
    List.Chain' (fun r s => ∀ a ∈ r, ∀ b ∈ s, mateKey a ≠ mateKey b)
      (peRuns l) := by
  induction l using peRuns.induct with
  | case1 => simp [peRuns]
  | case2 x rest ih =>
    unfold peRuns
    rw [List.chain'_cons']
    refine ⟨?_, ih⟩
    intro s hs a ha b hb
    match hdrop : peRuns (rest.dropWhile (fun y => sameMateKey x y)) with
    | [] => rw [hdrop] at hs; simp at hs
    | s2 :: rest3 =>
      rw [hdrop] at hs
      simp only [List.head?_cons, Option.mem_def, Option.some.injEq] at hs
      subst hs
      obtain ⟨y, t, hyt, hkey⟩ := peRuns_head_key _ _ _ hdrop
      have hfalse : sameMateKey x y = false := dropWhile_head_false hyt
      have hax : mateKey a = mateKey x := by
        rcases List.mem_cons.1 ha with rfl | ha
        · rfl
        · exact (sameMateKey_iff.1 (List.mem_takeWhile_imp ha)).symm
      have hby : mateKey b = mateKey y := hkey b hb
      intro hab
      have : sameMateKey x y = true := by
        rw [sameMateKey_iff]
        rw [← hax, hab, hby]
      simp [this] at hfalse

theorem length_dropWhile_le_meta (p : Metadata → Bool) (l : List Metadata) :
    (l.dropWhile p).length ≤ l.length := by
  induction l with
  | nil => simp [List.dropWhile]
  | cons a t ih =>
    rw [List.dropWhile]
    cases hpa : p a with
    | false => simp
    | true => exact le_trans ih (Nat.le_succ _)

theorem peRuns_length_le (l : List Metadata) :
    (peRuns l).length ≤ l.length := by
  induction l using peRuns.induct with
  | case1 => simp [peRuns]
  | case2 x rest ih =>
    unfold peRuns
    simp only [List.length_cons]
    have hd := length_dropWhile_le_meta (fun y => sameMateKey x y) rest
    omega

theorem peDedup_cons_fst (y : Metadata) (rest : List Metadata)
    (mask : Finset Nat) :
    (peDedup (y :: rest) mask).1 =
      (peDedup (rest.dropWhile (fun z => sameMateKey y z))
        (markRunExcept (y :: rest.takeWhile (fun z => sameMateKey y z))
          (bestIdxGe (y :: rest.takeWhile (fun z => sameMateKey y z)))
          mask).1).1 := by
  simp only [peDedup]

theorem peDedup_cons_snd (y : Metadata) (rest : List Metadata)
    (mask : Finset Nat) :
    (peDedup (y :: rest) mask).2 =
      (markRunExcept (y :: rest.takeWhile (fun z => sameMateKey y z))
        (bestIdxGe (y :: rest.takeWhile (fun z => sameMateKey y z)))
        mask).2 +
      (peDedup (rest.dropWhile (fun z => sameMateKey y z))
        (markRunExcept (y :: rest.takeWhile (fun z => sameMateKey y z))
          (bestIdxGe (y :: rest.takeWhile (fun z => sameMateKey y z)))
          mask).1).2 := by
  simp only [peDedup]

theorem peDedup_mem (l : List Metadata) (mask : Finset Nat) (x : Nat) :
    x ∈ (peDedup l mask).1 ↔ x ∈ mask ∨
      ∃ run ∈ peRuns l, ∃ k, k < run.length ∧ k ≠ bestIdxGe run ∧
        (x = (run.getD k mZero).idx1 % U32 ∨
         x = (run.getD k mZero).idx2 % U32) := by
  induction l, mask using peDedup.induct with
  | case1 mask => simp [peDedup, peRuns]
  | case2 y rest mask run mk =>
    rename_i ih
    rw [peDedup_cons_fst, ih]
    rw [show mk.1 = (markRunAux run 0 (bestIdxGe run) mask 0).1 from rfl,
      markRunAux_mem]
    rw [show peRuns (y :: rest) =
      (y :: rest.takeWhile (fun z => sameMateKey y z)) ::
        peRuns (rest.dropWhile (fun z => sameMateKey y z)) from by
      simp only [peRuns]]
    simp only [List.mem_cons, Nat.zero_add]
    constructor
    · rintro ((hx | ⟨k, hk, hne, hx⟩) | ⟨r, hr, k, hk, hne, hx⟩)
      · exact Or.inl hx
      · exact Or.inr ⟨_, Or.inl rfl, k, hk, hne, hx⟩
      · exact Or.inr ⟨r, Or.inr hr, k, hk, hne, hx⟩
    · rintro (hx | ⟨r, hr | hr, k, hk, hne, hx⟩)
      · exact Or.inl (Or.inl hx)
      · subst hr
        exact Or.inl (Or.inr ⟨k, hk, hne, hx⟩)
      · exact Or.inr ⟨r, hr, k, hk, hne, hx⟩

theorem peDedup_count (l : List Metadata) (mask : Finset Nat) :
    (peDedup l mask).2 = 2 * (l.length - (peRuns l).length) := by
  induction l, mask using peDedup.induct with
  | case1 mask => simp [peDedup, peRuns]
  | case2 y rest mask run mk =>
    rename_i ih
    rw [peDedup_cons_snd, ih]
    have hbest := (bestIdxGe_spec
      (y :: rest.takeWhile (fun z => sameMateKey y z)) (by simp)).1
    have hcount := markRunAux_count
      (y :: rest.takeWhile (fun z => sameMateKey y z)) 0
      (bestIdxGe (y :: rest.takeWhile (fun z => sameMateKey y z))) mask 0
    have hsplit : (rest.takeWhile (fun z => sameMateKey y z)).length +
        (rest.dropWhile (fun z => sameMateKey y z)).length = rest.length := by
      conv_rhs => rw [← List.takeWhile_append_dropWhile
        (p := fun z => sameMateKey y z) (l := rest)]
      rw [List.length_append]
    have hruns := peRuns_length_le (rest.dropWhile (fun z => sameMateKey y z))
    rw [show peRuns (y :: rest) =
      (y :: rest.takeWhile (fun z => sameMateKey y z)) ::
        peRuns (rest.dropWhile (fun z => sameMateKey y z)) from by
      simp only [peRuns]]
    simp only [List.length_cons] at hbest hcount ⊢
    rw [show markRunExcept (y :: rest.takeWhile (fun z => sameMateKey y z))
      (bestIdxGe (y :: rest.takeWhile (fun z => sameMateKey y z))) mask =
      markRunAux (y :: rest.takeWhile (fun z => sameMateKey y z)) 0
        (bestIdxGe (y :: rest.takeWhile (fun z => sameMateKey y z))) mask 0
      from rfl] at *
    rw [hcount]
    split_ifs with hif
    · omega
    · omega

theorem mem_of_mem_peRuns {l : List Metadata} {run : List Metadata}
    (hrun : run ∈ peRuns l) {a : Metadata} (ha : a ∈ run) : a ∈ l := by
  rw [← peRuns_join l]
  exact List.mem_flatten.2 ⟨run, hrun, ha⟩

/-- C5: the PE dedup loop decomposes the PE entries of the group into
maximal runs of consecutive entries sharing `(ref_id2, pos2, rev2)`;
within each run exactly one entry is kept — the one with the highest
score, ties broken in favor of the last tied entry (`>=` scan) — and
every other entry of the run has both its `idx1` and its `idx2`
inserted into the duplicate-index set. -/
theorem c5_pe_run_dedup (pes : List Metadata) (mask : Finset Nat)
    (hidx : ∀ m ∈ pes, m.idx1 < 2 ^ 32 ∧ m.idx2 < 2 ^ 32) :
    (peRuns pes).flatten = pes ∧
    (∀ run ∈ peRuns pes, ∀ a ∈ run, ∀ b ∈ run, mateKey a = mateKey b) ∧
    List.Chain' (fun r s => ∀ a ∈ r, ∀ b ∈ s, mateKey a ≠ mateKey b)
      (peRuns pes) ∧
    (∀ run ∈ peRuns pes,
      bestIdxGe run < run.length ∧
      (∀ k, k < run.length →
        (run.getD k mZero).score ≤ (run.getD (bestIdxGe run) mZero).score) ∧
      (∀ k, k < run.length → bestIdxGe run < k →
        (run.getD k mZero).score < (run.getD (bestIdxGe run) mZero).score)) ∧
    (peDedup pes mask).2 = 2 * (pes.length - (peRuns pes).length) ∧
    (∀ x, x ∈ (peDedup pes mask).1 ↔ x ∈ mask ∨
      ∃ run ∈ peRuns pes, ∃ k, k < run.length ∧ k ≠ bestIdxGe run ∧
        (x = (run.getD k mZero).idx1 ∨ x = (run.getD k mZero).idx2)) := by
  refine ⟨peRuns_join pes, peRuns_key_const pes, peRuns_chain pes, ?_,
    peDedup_count pes mask, ?_⟩
  · intro run hrun
    exact bestIdxGe_spec run (peRuns_ne_nil pes run hrun)
  · intro x
    rw [peDedup_mem]
    refine or_congr_right (exists_congr fun run => and_congr_right
      fun hrun => exists_congr fun k => and_congr_right fun hk =>
        and_congr_right fun _ => ?_)
    have hm : run.getD k mZero ∈ pes := mem_of_mem_peRuns hrun (getD_mem hk)
    rw [show U32 = 2 ^ 32 from rfl, Nat.mod_eq_of_lt (hidx _ hm).1,
      Nat.mod_eq_of_lt (hidx _ hm).2]

/-- C5 witness: the run-dedup theorem at spec scenario 4 — two PE
entries sharing both ends, scores 70 and 50. -/
theorem c5_pe_run_dedup_witness :
    (peRuns pesC5).flatten = pesC5 ∧
    (∀ run ∈ peRuns pesC5, ∀ a ∈ run, ∀ b ∈ run, mateKey a = mateKey b) ∧
    List.Chain' (fun r s => ∀ a ∈ r, ∀ b ∈ s, mateKey a ≠ mateKey b)
      (peRuns pesC5) ∧
    (∀ run ∈ peRuns pesC5,
      bestIdxGe run < run.length ∧
      (∀ k, k < run.length →
        (run.getD k mZero).score ≤ (run.getD (bestIdxGe run) mZero).score) ∧
      (∀ k, k < run.length → bestIdxGe run < k →
        (run.getD k mZero).score < (run.getD (bestIdxGe run) mZero).score)) ∧
    (peDedup pesC5 ∅).2 = 2 * (pesC5.length - (peRuns pesC5).length) ∧
    (∀ x, x ∈ (peDedup pesC5 ∅).1 ↔ x ∈ (∅ : Finset Nat) ∨
      ∃ run ∈ peRuns pesC5, ∃ k, k < run.length ∧ k ≠ bestIdxGe run ∧
        (x = (run.getD k mZero).idx1 ∨ x = (run.getD k mZero).idx2)) :=
  c5_pe_run_dedup pesC5 ∅ (by decide)

/-! ### Fragment-only group reduction (C6) -/

theorem identify_dups_frag_only (group : List Metadata) (mask : Finset Nat)
    (pse : Finset GroupKey)
    (hall : ∀ m ∈ group, m.ref_id2 = -1 ∧ m.paired_end = 0)
    (hlen : 2 ≤ group.length)
    (hkey : ((group.getD 0 mZero).lib_id, (group.getD 0 mZero).ref_id1,
      (group.getD 0 mZero).pos1, (group.getD 0 mZero).rev1) ∉ pse) :
    identify_dups group mask pse =
      ((markFragsExcept group (seBestIdx group) mask).1, 0, 0,
        (markFragsExcept group (seBestIdx group) mask).2) := by
  match group with
  | [] => simp at hlen
  | g0 :: rest =>
    have hpes : (g0 :: rest).filter (fun m => m.ref_id2 != -1) = [] := by
      rw [List.filter_eq_nil_iff]
      intro a ha
      simp [(hall a ha).1]
    have hses : (g0 :: rest).filter (not ∘ fun m => m.ref_id2 != -1) =
        g0 :: rest := by
      rw [List.filter_eq_self]
      intro a ha
      simp [Function.comp, (hall a ha).1]
    have hp0 : (g0 :: rest).filter (fun se => se.paired_end == 0) =
        g0 :: rest := by
      rw [List.filter_eq_self]
      intro a ha
      simp [(hall a ha).2]
    have hp1 : (g0 :: rest).filter (fun se => se.paired_end == 1) = [] := by
      rw [List.filter_eq_nil_iff]
      intro a ha
      simp [(hall a ha).2]
    have hkey2 : (g0.lib_id, g0.ref_id1, g0.pos1, g0.rev1) ∉ pse := by
      simpa using hkey
    unfold identify_dups
    dsimp only
    rw [List.partition_eq_filter_filter]
    dsimp only
    rw [hpes, hses, hp0, hp1, if_neg hkey2]
    simp only [peDedup, List.length_nil, Nat.add_zero, List.isEmpty_cons,
      List.isEmpty_nil, Bool.not_true, Bool.not_false, Bool.false_or,
      Bool.or_self, decide_eq_true_eq]
    split_ifs with h1 h2 h3
    all_goals try rfl
    all_goals simp_all
    all_goals omega

/-- C6: for a group of at least two fragments and nothing else (no PE
entry, no unmatched-mate entry, group key not a PE second end),
exactly the single highest-score fragment is kept — ties broken in
favor of the first-occurring fragment (strict `>` scan) — and the
`idx1` of every other fragment is inserted into the duplicate-index
set. -/
theorem c6_fragment_only_dedup (group : List Metadata) (mask : Finset Nat)
    (pse : Finset GroupKey)
    (hall : ∀ m ∈ group, m.ref_id2 = -1 ∧ m.paired_end = 0)
    (hlen : 2 ≤ group.length)
    (hkey : ((group.getD 0 mZero).lib_id, (group.getD 0 mZero).ref_id1,
      (group.getD 0 mZero).pos1, (group.getD 0 mZero).rev1) ∉ pse)
    (hidx : ∀ m ∈ group, m.idx1 < 2 ^ 32) :
    seBestIdx group < group.length ∧
    (∀ k, k < group.length →
      (group.getD k mZero).score ≤
        (group.getD (seBestIdx group) mZero).score) ∧
    (∀ k, k < group.length → k < seBestIdx group →
      (group.getD k mZero).score <
        (group.getD (seBestIdx group) mZero).score) ∧
    (∀ x, x ∈ (identify_dups group mask pse).1 ↔ x ∈ mask ∨
      ∃ k, k < group.length ∧ k ≠ seBestIdx group ∧
        x = (group.getD k mZero).idx1) ∧
    (identify_dups group mask pse).2 = (0, 0, group.length - 1) := by
  have hne : group ≠ [] := by
    cases group
    · simp at hlen
    · simp
  obtain ⟨hb1, hb2, hb3⟩ := seBestIdx_spec group hne
  rw [identify_dups_frag_only group mask pse hall hlen hkey]
  refine ⟨hb1, hb2, hb3, ?_, ?_⟩
  · intro x
    rw [show (markFragsExcept group (seBestIdx group) mask) =
      markFragsAux group 0 (seBestIdx group) mask 0 from rfl]
    rw [markFragsAux_mem]
    refine or_congr_right (exists_congr fun k => and_congr_right fun hk =>
      ?_)
    rw [Nat.zero_add]
    refine and_congr_right fun _ => ?_
    have hm : group.getD k mZero ∈ group := getD_mem hk
    rw [show U32 = 2 ^ 32 from rfl, Nat.mod_eq_of_lt (hidx _ hm)]
  · rw [show (markFragsExcept group (seBestIdx group) mask) =
      markFragsAux group 0 (seBestIdx group) mask 0 from rfl]
    rw [markFragsAux_count]
    rw [if_pos ⟨Nat.zero_le _, by simpa using hb1⟩]
    simp

/-- C6 witness: the fragment-dedup theorem at spec scenario 2 — three
fragments with scores 50/70/40 at indices 0/1/2. -/
theorem c6_fragment_only_dedup_witness :
    seBestIdx groupC6 < groupC6.length ∧
    (∀ k, k < groupC6.length →
      (groupC6.getD k mZero).score ≤
        (groupC6.getD (seBestIdx groupC6) mZero).score) ∧
    (∀ k, k < groupC6.length → k < seBestIdx groupC6 →
      (groupC6.getD k mZero).score <
        (groupC6.getD (seBestIdx groupC6) mZero).score) ∧
    (∀ x, x ∈ (identify_dups groupC6 ∅ ∅).1 ↔ x ∈ (∅ : Finset Nat) ∨
      ∃ k, k < groupC6.length ∧ k ≠ seBestIdx groupC6 ∧
        x = (groupC6.getD k mZero).idx1) ∧
    (identify_dups groupC6 ∅ ∅).2 = (0, 0, groupC6.length - 1) :=
  c6_fragment_only_dedup groupC6 ∅ ∅ (by decide) (by decide) (by decide)
    (by decide)

/-! ### External sort and k-way merge (C8) -/

theorem metaRustLe_refl (a : Metadata) : metaRustLe a a := le_refl _

theorem metaRustLe_trans {a b c : Metadata} (h1 : metaRustLe a b)
    (h2 : metaRustLe b c) : metaRustLe a c := le_trans h1 h2

theorem metaRustLe_total (a b : Metadata) :
    metaRustLe a b ∨ metaRustLe b a := le_total _ _

theorem metaRustLe_of_lt {a b : Metadata} (h : metaRustLt a b) :
    metaRustLe a b := le_of_lt h

theorem metaRustLe_of_not_lt {a b : Metadata} (h : ¬metaRustLt a b) :
    metaRustLe b a := le_of_not_lt h

/-- The derived Rust order refines the specification's order: sorted
under the full derived key implies sorted under the spec's 10-field
key. -/
theorem metaRustLe_imp_spec {a b : Metadata} (h : metaRustLe a b) :
    metaSpecLe a b := by
  unfold metaRustLe metaKeyRust at h
  unfold metaSpecLe metaKeySpec
  simp only [Prod.Lex.le_iff] at h ⊢
  omega

theorem rustSortChunk_sorted (l : List Metadata) :
    List.Sorted metaRustLe (rustSortChunk l) := by
  have ht : ∀ a b c : Metadata, decide (metaRustLe a b) = true →
      decide (metaRustLe b c) = true → decide (metaRustLe a c) = true := by
    intro a b c hab hbc
    simp only [decide_eq_true_eq] at *
    exact metaRustLe_trans hab hbc
  have htot : ∀ a b : Metadata,
      (decide (metaRustLe a b) || decide (metaRustLe b a)) = true := by
    intro a b
    rcases metaRustLe_total a b with h | h <;> simp [h]
  have hp := List.sorted_mergeSort ht htot l
  exact hp.imp (fun hab => of_decide_eq_true hab)

theorem getD_mem_list {α : Type} {l : List α} {k : Nat} {d : α}
    (h : k < l.length) : l.getD k d ∈ l := by
  rw [List.getD_eq_getElem l d h]
  exact List.getElem_mem h

theorem pickMinAux_spec (l : List (List Metadata)) (i0 : Nat)
    (acc : Option (Nat × Metadata)) (i : Nat) (h : Metadata)
    (hres : pickMinAux l i0 acc = some (i, h)) :
    (acc = some (i, h) ∨
      ∃ j t, j < l.length ∧ i = i0 + j ∧ l.getD j [] = h :: t) ∧
    (∀ s ∈ l, ∀ hd t, s = hd :: t → metaRustLe h hd) ∧
    (∀ bi bh, acc = some (bi, bh) → metaRustLe h bh) := by
  induction l generalizing i0 acc with
  | nil =>
    have hacc0 : acc = some (i, h) := hres
    refine ⟨Or.inl hacc0, by simp, ?_⟩
    intro bi bh hacc
    rw [hacc0] at hacc
    cases hacc
    exact metaRustLe_refl _
  | cons s rest ih =>
    unfold pickMinAux at hres
    match s, hres with
    | [], hres =>
      obtain ⟨hfirst, hmin, hacc⟩ := ih (i0 + 1) acc hres
      refine ⟨?_, ?_, hacc⟩
      · rcases hfirst with hf | ⟨j, t, hj, hi, hget⟩
        · exact Or.inl hf
        · exact Or.inr ⟨j + 1, t, by simpa using hj, by omega,
            by simpa using hget⟩
      · intro s2 hs2 hd t hst
        rcases List.mem_cons.1 hs2 with rfl | hs2
        · simp at hst
        · exact hmin s2 hs2 hd t hst
    | hd :: t, hres =>
      match acc, hres with
      | none, hres =>
        dsimp only at hres
        obtain ⟨hfirst, hmin, hacc⟩ := ih (i0 + 1) (some (i0, hd)) hres
        refine ⟨?_, ?_, by simp⟩
        · rcases hfirst with hf | ⟨j, t2, hj, hi, hget⟩
          · cases hf
            exact Or.inr ⟨0, t, by simp, by omega, by simp⟩
          · exact Or.inr ⟨j + 1, t2, by simpa using hj, by omega,
              by simpa using hget⟩
        · intro s2 hs2 hd2 t2 hst
          rcases List.mem_cons.1 hs2 with rfl | hs2
          · cases hst
            exact hacc i0 hd rfl
          · exact hmin s2 hs2 hd2 t2 hst
      | some (bi, bh), hres =>
        dsimp only at hres
        by_cases hlt : metaRustLt hd bh
        · rw [if_pos hlt] at hres
          obtain ⟨hfirst, hmin, hacc⟩ := ih (i0 + 1) (some (i0, hd)) hres
          have hhd : metaRustLe h hd := hacc i0 hd rfl
          refine ⟨?_, ?_, ?_⟩
          · rcases hfirst with hf | ⟨j, t2, hj, hi, hget⟩
            · cases hf
              exact Or.inr ⟨0, t, by simp, by omega, by simp⟩
            · exact Or.inr ⟨j + 1, t2, by simpa using hj, by omega,
                by simpa using hget⟩
          · intro s2 hs2 hd2 t2 hst
            rcases List.mem_cons.1 hs2 with rfl | hs2
            · cases hst
              exact hhd
            · exact hmin s2 hs2 hd2 t2 hst
          · intro bi2 bh2 hacc2
            cases hacc2
            exact metaRustLe_trans hhd (metaRustLe_of_lt hlt)
        · rw [if_neg hlt] at hres
          obtain ⟨hfirst, hmin, hacc⟩ := ih (i0 + 1) (some (bi, bh)) hres
          have hbh : metaRustLe h bh := hacc bi bh rfl
          refine ⟨?_, ?_, ?_⟩
          · rcases hfirst with hf | ⟨j, t2, hj, hi, hget⟩
            · exact Or.inl hf
            · exact Or.inr ⟨j + 1, t2, by simpa using hj, by omega,
                by simpa using hget⟩
          · intro s2 hs2 hd2 t2 hst
            rcases List.mem_cons.1 hs2 with rfl | hs2
            · cases hst
              exact metaRustLe_trans hbh (metaRustLe_of_not_lt hlt)
            · exact hmin s2 hs2 hd2 t2 hst
          · intro bi2 bh2 hacc2
            cases hacc2
            exact hbh

theorem kMergeF_lower (fuel : Nat) (ss : List (List Metadata))
    (m : Metadata) (hm : ∀ s ∈ ss, ∀ x ∈ s, metaRustLe m x) :
    ∀ y ∈ kMergeF fuel ss, metaRustLe m y := by
  induction fuel generalizing ss with
  | zero => simp [kMergeF]
  | succ fuel ih =>
    unfold kMergeF
    match hpick : pickMin ss with
    | none => simp
    | some (i, h) =>
      intro y hy
      obtain ⟨hfirst, hmin, _⟩ := pickMinAux_spec ss 0 none i h hpick
      rcases List.mem_cons.1 hy with rfl | hy
      · rcases hfirst with hf | ⟨j, t, hj, hi, hget⟩
        · cases hf
        · refine hm (ss.getD j []) (getD_mem_list hj) y ?_
          rw [hget]
          exact List.mem_cons_self _ _
      · refine ih (ss.set i ((ss.getD i []).tail)) ?_ y hy
        intro s2 hs2 x hx
        rcases List.mem_or_eq_of_mem_set hs2 with hs2 | rfl
        · exact hm s2 hs2 x hx
        · rcases hfirst with hf | ⟨j, t, hj, hi, hget⟩
          · cases hf
          · refine hm (ss.getD i []) (getD_mem_list (show i < ss.length by omega)) x ?_
            subst hi
            simp only [Nat.zero_add] at *
            rw [hget] at hx ⊢
            exact List.mem_cons_of_mem _ hx

theorem kMergeF_sorted (fuel : Nat) (ss : List (List Metadata))
    (hs : ∀ s ∈ ss, List.Sorted metaRustLe s) :
    List.Sorted metaRustLe (kMergeF fuel ss) := by
  induction fuel generalizing ss with
  | zero => simp [kMergeF]
  | succ fuel ih =>
    unfold kMergeF
    match hpick : pickMin ss with
    | none => simp
    | some (i, h) =>
      obtain ⟨hfirst, hmin, _⟩ := pickMinAux_spec ss 0 none i h hpick
      rw [List.sorted_cons]
      constructor
      · refine kMergeF_lower fuel _ h ?_
        intro s2 hs2 x hx
        rcases List.mem_or_eq_of_mem_set hs2 with hs2 | rfl
        · match s2, hx with
          | hd :: t, hx =>
            have hh : metaRustLe h hd := hmin _ hs2 hd t rfl
            rcases List.mem_cons.1 hx with rfl | hx
            · exact hh
            · exact metaRustLe_trans hh
                ((List.sorted_cons.1 (hs _ hs2)).1 x hx)
        · rcases hfirst with hf | ⟨j, t, hj, hi, hget⟩
          · cases hf
          · subst hi
            simp only [Nat.zero_add] at *
            rw [hget] at hx
            simp only [List.tail_cons] at hx
            have hsorted := hs (ss.getD j []) (getD_mem_list hj)
            rw [hget] at hsorted
            exact (List.sorted_cons.1 hsorted).1 x hx
      · refine ih _ ?_
        intro s2 hs2
        rcases List.mem_or_eq_of_mem_set hs2 with hs2 | rfl
        · exact hs s2 hs2
        · match hget2 : ss.getD i [] with
          | [] => simp [hget2]
          | hd :: t =>
            simp only [List.tail_cons]
            have hsorted := hs (ss.getD i []) (getD_mem_list
              (show i < ss.length by
                rcases hfirst with hf | ⟨j, t2, hj, hi, hget⟩
                · cases hf
                · omega))
            rw [hget2] at hsorted
            exact (List.sorted_cons.1 hsorted).2

/-- C8: for every stream of first-pass Metadata entries and every
batch size, the k-way merge over the sorted spill batches is
monotonically non-decreasing under the specification's total order
`lib_id, ref_id1, pos1, rev1, rev2, ref_id2, pos2, score`, ties broken
by `idx1` then `idx2`. -/
theorem c8_merge_sorted (entries : List Metadata) (bs : Nat) :
    List.Sorted metaSpecLe (kMerge ((chunks bs entries).map rustSortChunk)) := by
  have hsorted : ∀ s ∈ (chunks bs entries).map rustSortChunk,
      List.Sorted metaRustLe s := by
    intro s hs
    obtain ⟨c, _, rfl⟩ := List.mem_map.1 hs
    exact rustSortChunk_sorted c
  have hk := kMergeF_sorted
    ((((chunks bs entries).map rustSortChunk).map List.length).sum)
    ((chunks bs entries).map rustSortChunk) hsorted
  unfold kMerge
  exact hk.imp (fun h => metaRustLe_imp_spec h)

end Rmdups
